import Mathlib

/-! Verification of the graph-based location-privacy algorithms of this
repository: the density-aware k-anonymity engine (adka.py and
density_aware__k_anonymity_simulation.py), the direct k-anonymity engine
(k_anonymity.py) and the differential-privacy analyzer
(differential_privacy_simulation.py).

Embedding conventions: Python ints stay Nat, Python floats become Rat,
Python dicts become association lists (insertion ordered), Python sets
become Finset Nat, and a raised exception becomes an explicit error
value.  The unbounded while loops are embedded with a fuel argument that
makes the recursion structural; the fuel baked into each entry point is
proved sufficient in the theorems below, and running out of fuel is a
distinguished result value that the theorems show never occurs on the
relevant inputs. -/

/-- Equality on Except values, needed to evaluate the embedded fallible
functions inside closed theorems. -/
instance {e a : Type} [DecidableEq e] [DecidableEq a] : DecidableEq (Except e a) := fun x y =>
  match x, y with
  | .error p, .error q =>
    if h : p = q then .isTrue (by rw [h]) else .isFalse (by intro hc; injection hc; exact h (by assumption))
  | .ok p, .ok q =>
    if h : p = q then .isTrue (by rw [h]) else .isFalse (by intro hc; injection hc; exact h (by assumption))
  | .error _, .ok _ => .isFalse (by intro hc; exact Except.noConfusion hc)
  | .ok _, .error _ => .isFalse (by intro hc; exact Except.noConfusion hc)

/-! ## Density-aware engine (adka.py, density_aware__k_anonymity_simulation.py) -/

/-- The population-mode spatial graph: the node set of the networkx graph
G, its neighbor lists, and the user_locations / user_at_node dictionary
mapping each node to its non-negative user count. -/
structure DGraph where
  nodes : Finset ℕ
  adj : ℕ → List ℕ
  pop : ℕ → ℕ

/-- Reachability along neighbor lists, used to state that a graph is
connected from a seed. -/
inductive Reach (adj : ℕ → List ℕ) (s : ℕ) : ℕ → Prop
  | refl : Reach adj s s
  | step {u v : ℕ} : Reach adj s u → v ∈ adj u → Reach adj s v

/-- Inner for-loop of compute_density: every neighbor not yet visited is
marked visited, appended to the queue at depth d + 1, and its population
added to the running count. -/
def densityScan (g : DGraph) (d : ℕ) :
    List ℕ → Finset ℕ → List (ℕ × ℕ) → ℕ → Finset ℕ × List (ℕ × ℕ) × ℕ
  | [], visited, queue, count => (visited, queue, count)
  | n :: ns, visited, queue, count =>
    if n ∈ visited then densityScan g d ns visited queue count
    else densityScan g d ns (insert n visited) (queue ++ [(n, d + 1)]) (count + g.pop n)

/-- While-loop of compute_density: pop the front entry; if its depth tag
equals the requested depth the entry is skipped (continue), otherwise its
neighbors are scanned. -/
def densityLoop (g : DGraph) (depth : ℕ) :
    ℕ → Finset ℕ → List (ℕ × ℕ) → ℕ → Option ℕ
  | _, _, [], count => some count
  | 0, _, _ :: _, _ => none
  | fuel + 1, visited, (current, d) :: rest, count =>
    if d = depth then densityLoop g depth fuel visited rest count
    else
      densityLoop g depth fuel
        (densityScan g d (g.adj current) visited rest count).1
        (densityScan g d (g.adj current) visited rest count).2.1
        (densityScan g d (g.adj current) visited rest count).2.2

/-- compute_density (adka.py) / compute_local_density (simulation):
breadth-first population sum from node up to the given hop depth. -/
def compute_density (g : DGraph) (node : ℕ) (depth : ℕ) : Option ℕ :=
  densityLoop g depth (g.nodes.card + 2) {node} [(node, 0)] (g.pop node)

/-- The set of nodes at hop distance at most d from the seed, as iterated
neighborhoods; this is the specification-side notion the density claim
compares against. -/
def ball (g : DGraph) (seed : ℕ) : ℕ → Finset ℕ
  | 0 => {seed}
  | d + 1 => ball g seed d ∪ (ball g seed d).biUnion fun u => (g.adj u).toFinset

/-- Result of a region expansion: a returned region, the IndexError
raised by list.pop(0) on an empty frontier, or fuel exhaustion of the
embedding (proved unreachable with the chosen fuel). -/
inductive ExpRes where
  | ok (region : Finset ℕ)
  | popEmpty
  | fuelOut
  deriving DecidableEq

/-- Inner for-loop of expand_region: each neighbor not yet in the region
is added to the region and the queue and its population added to the
running count; the scan breaks off early once the count reaches k. -/
def scanNeighbors (g : DGraph) (k : ℕ) :
    List ℕ → Finset ℕ → List ℕ → ℕ → Finset ℕ × List ℕ × ℕ
  | [], region, queue, count => (region, queue, count)
  | n :: ns, region, queue, count =>
    if n ∈ region then scanNeighbors g k ns region queue count
    else
      if k ≤ count + g.pop n then (insert n region, queue ++ [n], count + g.pop n)
      else scanNeighbors g k ns (insert n region) (queue ++ [n]) (count + g.pop n)

/-- While-loop shared by the two expansion functions.  guard = false is
the adka.py loop (while user_count < k), whose pop of an empty frontier
raises; guard = true is the simulation loop (while user_count < k and
queue), which returns the accumulated region when the frontier empties. -/
def expandLoop (g : DGraph) (k : ℕ) (guard : Bool) :
    ℕ → Finset ℕ → List ℕ → ℕ → ExpRes
  | 0, _, _, _ => .fuelOut
  | fuel + 1, region, queue, count =>
    if k ≤ count then .ok region
    else
      match queue with
      | [] => if guard then .ok region else .popEmpty
      | current :: rest =>
        expandLoop g k guard fuel
          (scanNeighbors g k (g.adj current) region rest count).1
          (scanNeighbors g k (g.adj current) region rest count).2.1
          (scanNeighbors g k (g.adj current) region rest count).2.2

/-- expand_region of adka.py: unguarded while loop. -/
def expand_region (g : DGraph) (start_node : ℕ) (k : ℕ) : ExpRes :=
  expandLoop g k false (2 * g.nodes.card + 2) {start_node} [start_node] (g.pop start_node)

/-- expand_anonymization_region of the simulation module: the same loop
with the frontier-exhaustion guard in the while condition. -/
def expand_anonymization_region (g : DGraph) (start_node : ℕ) (k : ℕ) : ExpRes :=
  expandLoop g k true (2 * g.nodes.card + 2) {start_node} [start_node] (g.pop start_node)

/-! ## Direct k-anonymity engine (k_anonymity.py) -/

/-- SmartCityGraph state: ordered node list of the networkx graph, its
neighbor lists, node positions, the users dict (user id to current node,
insertion ordered) and the user_positions dict. -/
structure City where
  nodesList : List ℕ
  adj : ℕ → List ℕ
  pos : ℕ → ℚ × ℚ
  users : List (ℕ × ℕ)
  userPositions : List (ℕ × (ℚ × ℚ))

/-- Node set of the city graph. -/
def cityNodes (c : City) : Finset ℕ := c.nodesList.toFinset

/-- SmartCityGraph.get_users_at_node: the users whose current node equals
node_id, in users-dict insertion order.  Note this is a comprehension
over the users dict with no membership check on node_id. -/
def get_users_at_node (c : City) (node_id : ℕ) : List ℕ :=
  (c.users.filter fun p => p.2 == node_id).map fun p => p.1

/-- Python dict assignment on an association list: overwrite in place if
the key exists, append otherwise. -/
def updateAssoc {α : Type} : List (ℕ × α) → ℕ → α → List (ℕ × α)
  | [], key, val => [(key, val)]
  | (a, b) :: rest, key, val =>
    if a = key then (key, val) :: rest else (a, b) :: updateAssoc rest key val

/-- SmartCityGraph.move_user: guarded by membership of the target node in
the graph; the jitter drawn from random.uniform is passed in explicitly
as jx, jy. -/
def move_user (c : City) (user_id new_node : ℕ) (jx jy : ℚ) : City :=
  if new_node ∈ cityNodes c then
    { c with
      users := updateAssoc c.users user_id new_node,
      userPositions :=
        updateAssoc c.userPositions user_id
          ((c.pos new_node).1 + jx, (c.pos new_node).2 + jy) }
  else c

/-- Neighbor enqueueing of find_k_anonymous_region: neighbors not yet
visited are appended to the queue and added to the region-node set. -/
def enqueueNbrs (nbrs : List ℕ) (visited : Finset ℕ) (queue : List ℕ) (region : Finset ℕ) :
    List ℕ × Finset ℕ :=
  match nbrs with
  | [] => (queue, region)
  | n :: ns =>
    if n ∈ visited then enqueueNbrs ns visited queue region
    else enqueueNbrs ns visited (queue ++ [n]) (insert n region)

/-- While-loop of find_k_anonymous_region: runs while the queue is
nonempty and fewer than k distinct users have been found; pops a node,
skips it if visited, merges in the users at that node, stops once k users
are collected, otherwise enqueues unvisited neighbors. -/
def findLoop (c : City) (k : ℕ) :
    ℕ → Finset ℕ → List ℕ → Finset ℕ → List ℕ → Option (Finset ℕ × List ℕ)
  | 0, _, _, _, _ => none
  | _ + 1, _, [], region, usersIn => some (region, usersIn)
  | fuel + 1, visited, current :: rest, region, usersIn =>
    if usersIn.length < k then
      if current ∈ visited then findLoop c k fuel visited rest region usersIn
      else
        let usersIn2 := usersIn ++ (get_users_at_node c current).filter fun u => ¬ usersIn.contains u
        if k ≤ usersIn2.length then some (region, usersIn2)
        else
          findLoop c k fuel (insert current visited)
            (enqueueNbrs (c.adj current) (insert current visited) rest region).1
            (enqueueNbrs (c.adj current) (insert current visited) rest region).2
            usersIn2
    else some (region, usersIn)

/-- Fuel sufficient for findLoop: one unit per possible pop. -/
def findFuel (c : City) : ℕ :=
  (c.nodesList.map fun v => 1 + (c.adj v).length).sum + 2

/-- KAnonymityPrivacyManager.find_k_anonymous_region: the users dict
lookup of the query user raises KeyError when absent; otherwise the BFS
loop runs from the user's current node, seeded with that node and that
user. -/
def find_k_anonymous_region (c : City) (k : ℕ) (query_user : ℕ) :
    Except String (Finset ℕ × List ℕ) :=
  match List.lookup query_user c.users with
  | none => .error ("KeyError")
  | some query_node =>
    match findLoop c k (findFuel c) ∅ [query_node] {query_node} [query_user] with
    | some res => .ok res
    | none => .error ("fuel exhausted")

/-- The fallback region of get_anonymized_location: the first k nodes of
the graph's node enumeration. -/
def firstKNodes (c : City) (k : ℕ) : Finset ℕ := (c.nodesList.take k).toFinset

/-- Arithmetic centroid of the positions of a node set (mean x, mean y).
On the empty set rational division yields 0 where Python would raise; no
reachable call site passes an empty set. -/
def centroid (c : City) (s : Finset ℕ) : ℚ × ℚ :=
  ((∑ n in s, (c.pos n).1) / s.card, (∑ n in s, (c.pos n).2) / s.card)

/-- KAnonymityPrivacyManager.get_anonymized_location: if fewer than k
users were found the region is silently replaced by the first k nodes of
the node enumeration; either way the centroid of the final region is
returned together with the region and the user list. -/
def get_anonymized_location (c : City) (k : ℕ) (query_user : ℕ) :
    Except String (ℚ × ℚ × Finset ℕ × List ℕ) :=
  match find_k_anonymous_region c k query_user with
  | .error e => .error e
  | .ok (region, usersIn) =>
    let finalRegion := if usersIn.length < k then firstKNodes c k else region
    .ok ((centroid c finalRegion).1, (centroid c finalRegion).2, finalRegion, usersIn)

/-! ## Differential-privacy obfuscator and analyzer
    (differential_privacy_simulation.py) -/

/-- Configuration state of DifferentialPrivacyLocationObfuscator. -/
structure DifferentialPrivacyLocationObfuscator where
  epsilon_values : List ℚ
  sensitivity : ℚ

/-- The constructor: stores the candidate epsilon list unchanged and sets
sensitivity to 1.0; it performs no validation whatsoever. -/
def mkObfuscator (eps : List ℚ) : DifferentialPrivacyLocationObfuscator :=
  { epsilon_values := eps, sensitivity := 1 }

/-- PrivacyUtilityAnalyzer.calculate_privacy_level: five-tier bucketing of
the privacy budget by fixed thresholds. -/
def calculate_privacy_level (epsilon : ℚ) : String :=
  if 5 ≤ epsilon then ("Low Privacy")
  else if 2 ≤ epsilon then ("Medium Privacy")
  else if 1 ≤ epsilon then ("High Privacy")
  else if 0.5 ≤ epsilon then ("Very High Privacy")
  else ("Maximum Privacy")

/-- np.mean: the arithmetic mean; on an empty array numpy returns nan
(with a warning, not an exception), modelled as none. -/
def npMean (l : List ℚ) : Option ℚ :=
  if l = [] then none else some (l.sum / l.length)

/-- Insertion into a sorted list, used to model numpy's sort. -/
def insertOrd (x : ℚ) : List ℚ → List ℚ
  | [] => [x]
  | y :: ys => if x ≤ y then x :: y :: ys else y :: insertOrd x ys

/-- Insertion sort on rationals. -/
def sortList : List ℚ → List ℚ
  | [] => []
  | x :: xs => insertOrd x (sortList xs)

/-- np.median: middle element of the sorted data for odd length, average
of the two middle elements for even length; nan (none) on empty input. -/
def npMedian (l : List ℚ) : Option ℚ :=
  if l = [] then none
  else
    some
      (if (sortList l).length % 2 = 1 then (sortList l).getD ((sortList l).length / 2) 0
       else
         ((sortList l).getD ((sortList l).length / 2 - 1) 0 +
             (sortList l).getD ((sortList l).length / 2) 0) / 2)

/-- The population variance of the data; np.std returns its nonnegative
square root, which is irrational in general, so the embedding keeps the
squared value (no claim depends on the std value itself).  nan (none) on
empty input. -/
def npVarianceSq (l : List ℚ) : Option ℚ :=
  if l = [] then none
  else some ((l.map fun x => (x - l.sum / l.length) ^ 2).sum / l.length)

/-- np.max: raises ValueError on a zero-size array. -/
def npMax : List ℚ → Except String ℚ
  | [] => .error ("zero-size array to reduction operation maximum which has no identity")
  | x :: xs => .ok (xs.foldl max x)

/-- np.min: raises ValueError on a zero-size array. -/
def npMin : List ℚ → Except String ℚ
  | [] => .error ("zero-size array to reduction operation minimum which has no identity")
  | x :: xs => .ok (xs.foldl min x)

/-- The statistics dict built by calculate_utility_loss.  std_sq_error
stores the square of np.std (see npVarianceSq). -/
structure UtilityLoss where
  mean_error : Option ℚ
  median_error : Option ℚ
  std_sq_error : Option ℚ
  max_error : ℚ
  min_error : ℚ
  deriving DecidableEq

/-- PrivacyUtilityAnalyzer.calculate_utility_loss: the dict literal
evaluates np.mean, np.median and np.std first (nan on empty input), then
np.max, which raises ValueError on an empty error sequence, then np.min. -/
def calculate_utility_loss (errors : List ℚ) : Except String UtilityLoss :=
  match npMax errors, npMin errors with
  | .ok mx, .ok mn =>
    .ok
      { mean_error := npMean errors, median_error := npMedian errors,
        std_sq_error := npVarianceSq errors, max_error := mx, min_error := mn }
  | .error e, _ => .error e
  | .ok _, .error e => .error e

/-! ## Concrete instances used by counterexamples and witnesses -/

/-- One isolated node with population 0. -/
def g1 : DGraph := ⟨{0}, fun _ => [], fun _ => 0⟩

/-- Two connected nodes, population 1 each. -/
def g2 : DGraph :=
  ⟨{0, 1}, fun n => if n = 0 then [1] else if n = 1 then [0] else [], fun _ => 1⟩

/-- Two connected nodes with one user on each: user 0 at node 0, user 1
at node 1. -/
def city2 : City :=
  { nodesList := [0, 1],
    adj := fun n => if n = 0 then [1] else if n = 1 then [0] else [],
    pos := fun n => if n = 1 then ((1 : ℚ), 0) else (0, 0),
    users := [(0, 0), (1, 1)],
    userPositions := [(0, ((0 : ℚ), (0 : ℚ))), (1, (1, 0))] }

/-! ## Helper lemmas: region growth is monotone -/

lemma scanNeighbors_region_mono (g : DGraph) (k : ℕ) :
    ∀ (ns : List ℕ) (region : Finset ℕ) (queue : List ℕ) (count : ℕ),
      region ⊆ (scanNeighbors g k ns region queue count).1 := by
  intro ns
  induction ns with
  | nil => intro region queue count; exact Finset.Subset.refl _
  | cons n ns ih =>
    intro region queue count
    by_cases hn : n ∈ region
    · simpa [scanNeighbors, hn] using ih region queue count
    · by_cases hk : k ≤ count + g.pop n
      · simp only [scanNeighbors, if_neg hn, if_pos hk]
        exact Finset.subset_insert _ _
      · simp only [scanNeighbors, if_neg hn, if_neg hk]
        exact (Finset.subset_insert _ _).trans (ih _ _ _)

lemma expandLoop_ok_mono (g : DGraph) (k : ℕ) (guard : Bool) :
    ∀ (fuel : ℕ) (region : Finset ℕ) (queue : List ℕ) (count : ℕ) (r : Finset ℕ),
      expandLoop g k guard fuel region queue count = .ok r → region ⊆ r := by
  intro fuel
  induction fuel with
  | zero => intro region queue count r h; exact absurd h (by simp [expandLoop])
  | succ fuel ih =>
    intro region queue count r h
    simp only [expandLoop] at h
    by_cases hk : k ≤ count
    · rw [if_pos hk] at h
      injection h with h
      exact h ▸ Finset.Subset.refl _
    · rw [if_neg hk] at h
      match queue, h with
      | [], h =>
        cases guard with
        | false => exact absurd h (by simp)
        | true =>
          injection h with h
          exact h ▸ Finset.Subset.refl _
      | current :: rest, h =>
        exact (scanNeighbors_region_mono g k _ _ _ _).trans (ih _ _ _ _ h)

lemma enqueueNbrs_region_mono :
    ∀ (nbrs : List ℕ) (visited : Finset ℕ) (queue : List ℕ) (region : Finset ℕ),
      region ⊆ (enqueueNbrs nbrs visited queue region).2 := by
  intro nbrs
  induction nbrs with
  | nil => intro visited queue region; exact Finset.Subset.refl _
  | cons n ns ih =>
    intro visited queue region
    by_cases hn : n ∈ visited
    · simpa [enqueueNbrs, hn] using ih visited queue region
    · simp only [enqueueNbrs, if_neg hn]
      exact (Finset.subset_insert _ _).trans (ih _ _ _)

lemma findLoop_ok_mono (c : City) (k : ℕ) :
    ∀ (fuel : ℕ) (visited : Finset ℕ) (queue : List ℕ) (region : Finset ℕ)
      (usersIn : List ℕ) (r : Finset ℕ) (us : List ℕ),
      findLoop c k fuel visited queue region usersIn = some (r, us) → region ⊆ r := by
  intro fuel
  induction fuel with
  | zero =>
    intro visited queue region usersIn r us h
    exact absurd h (by simp [findLoop])
  | succ fuel ih =>
    intro visited queue region usersIn r us h
    match queue, h with
    | [], h =>
      rw [findLoop] at h
      injection h with h
      rw [(Prod.mk.injEq _ _ _ _).mp h |>.1]
    | current :: rest, h =>
      rw [findLoop] at h
      by_cases hlen : usersIn.length < k
      · rw [if_pos hlen] at h
        by_cases hv : current ∈ visited
        · rw [if_pos hv] at h
          exact ih _ _ _ _ _ _ h
        · rw [if_neg hv] at h
          set usersIn2 := usersIn ++ (get_users_at_node c current).filter
            fun u => ¬ usersIn.contains u with husers
          by_cases hk2 : k ≤ usersIn2.length
          · rw [if_pos hk2] at h
            injection h with h
            rw [(Prod.mk.injEq _ _ _ _).mp h |>.1]
          · rw [if_neg hk2] at h
            exact (enqueueNbrs_region_mono _ _ _ _).trans (ih _ _ _ _ _ _ h)
      · rw [if_neg hlen] at h
        injection h with h
        rw [(Prod.mk.injEq _ _ _ _).mp h |>.1]

/-! ## Claim theorems: direct k-anonymity engine -/

/-- C1 counterexample.  On a two-node city holding only two users, the
manager with k = 3 exhausts the graph with 2 < 3 users and takes the
fallback path, yet returns a value identical to the genuine success the
manager with k = 2 returns on the same query: the fallback carries no
distinct result variant and no flag, so it is a silent success. -/
theorem C1_fallback_not_flagged_cex :
    get_anonymized_location city2 2 0 = get_anonymized_location city2 3 0 ∧
    find_k_anonymous_region city2 2 0 = .ok ({1, 0}, [0, 1]) ∧
    find_k_anonymous_region city2 3 0 = .ok ({1, 0}, [0, 1]) ∧
    ([0, 1] : List ℕ).length < 3 ∧ 2 ≤ ([0, 1] : List ℕ).length := by
  refine ⟨?_, rfl, rfl, by decide, by decide⟩
  have h2 : find_k_anonymous_region city2 2 0 = .ok ({1, 0}, [0, 1]) := rfl
  have h3 : find_k_anonymous_region city2 3 0 = .ok ({1, 0}, [0, 1]) := rfl
  have hf : firstKNodes city2 3 = {1, 0} := by decide
  simp [get_anonymized_location, h2, h3, hf]

/-- C1 amended: the fallback of get_anonymized_location is not flagged.
Both the fallback path and the success path return through the same ok
tuple (centroid x, centroid y, region, user list); on the fallback path
the region is silently replaced by the first k nodes of the node
enumeration, and the only caller-visible signal is that the returned
user list has length below k. -/
theorem C1_fallback_silent_same_shape (c : City) (k query_user : ℕ) (r : Finset ℕ)
    (us : List ℕ) (hfind : find_k_anonymous_region c k query_user = .ok (r, us)) :
    (us.length < k → get_anonymized_location c k query_user =
      .ok ((centroid c (firstKNodes c k)).1, (centroid c (firstKNodes c k)).2,
        firstKNodes c k, us)) ∧
    (k ≤ us.length → get_anonymized_location c k query_user =
      .ok ((centroid c r).1, (centroid c r).2, r, us)) := by
  constructor
  · intro h
    simp [get_anonymized_location, hfind, h]
  · intro h
    simp [get_anonymized_location, hfind, Nat.not_lt.mpr h]

/-- Witness for C1 amended at the two-node city with k = 3. -/
theorem C1_fallback_silent_same_shape_w :
    find_k_anonymous_region city2 3 0 = .ok ({1, 0}, [0, 1]) ∧
    ([0, 1] : List ℕ).length < 3 ∧
    get_anonymized_location city2 3 0 =
      .ok ((centroid city2 (firstKNodes city2 3)).1,
        (centroid city2 (firstKNodes city2 3)).2, firstKNodes city2 3, [0, 1]) :=
  ⟨rfl, by decide,
    (C1_fallback_silent_same_shape city2 3 0 {1, 0} [0, 1] rfl).1 (by decide)⟩

/-- C5: every region returned by an expansion algorithm contains its
seed: expand_region's returned region contains the start node, and the
region_nodes returned by find_k_anonymous_region contain the query
user's current node. -/
theorem C5_region_contains_seed :
    (∀ (g : DGraph) (start_node k : ℕ) (r : Finset ℕ),
        expand_region g start_node k = .ok r → start_node ∈ r) ∧
    (∀ (c : City) (k query_user : ℕ) (r : Finset ℕ) (us : List ℕ) (n : ℕ),
        find_k_anonymous_region c k query_user = .ok (r, us) →
        List.lookup query_user c.users = some n → n ∈ r) := by
  constructor
  · intro g start_node k r h
    exact expandLoop_ok_mono g k false _ _ _ _ r h (Finset.mem_singleton_self start_node)
  · intro c k query_user r us n hfind hlook
    simp only [find_k_anonymous_region, hlook] at hfind
    rcases hh : findLoop c k (findFuel c) ∅ [n] {n} [query_user] with _ | ⟨r2, us2⟩
    · rw [hh] at hfind; exact absurd hfind (by simp)
    · rw [hh] at hfind
      injection hfind with hfind
      have hr : r2 = r := congrArg Prod.fst hfind
      exact findLoop_ok_mono c k _ _ _ _ _ _ _ (hr ▸ hh) (Finset.mem_singleton_self n)

/-- Witness for C5 on the two concrete graphs. -/
theorem C5_region_contains_seed_w :
    expand_region g2 0 2 = .ok {1, 0} ∧ (0 : ℕ) ∈ ({1, 0} : Finset ℕ) ∧
    find_k_anonymous_region city2 2 0 = .ok ({1, 0}, [0, 1]) ∧
    List.lookup 0 city2.users = some 0 ∧ (0 : ℕ) ∈ ({1, 0} : Finset ℕ) :=
  ⟨rfl, C5_region_contains_seed.1 g2 0 2 {1, 0} rfl, rfl, rfl,
    C5_region_contains_seed.2 city2 2 0 {1, 0} [0, 1] 0 rfl rfl⟩

/-! ## Claim theorems: expansion safety and validation -/

/-- C3: on the one-node graph with population 0 and k = 1 the frontier
empties before the running count reaches k.  adka.py's expand_region,
whose while condition does not test the queue, then pops from the empty
frontier list (an IndexError) instead of returning the accumulated
region; the sibling expand_anonymization_region, whose while condition
is (user_count < k and queue), returns the region as the claim states. -/
theorem C3_unguarded_loop_crashes_on_exhausted_frontier :
    expand_region g1 0 1 = .popEmpty ∧ expand_anonymization_region g1 0 1 = .ok {0} :=
  ⟨by decide, by decide⟩

/-- C6 counterexample.  Neither boundary rejects invalid configuration:
the k-anonymity engine constructed with non-positive k = 0 runs
get_anonymized_location to a normal success value instead of raising,
and the obfuscator constructor accepts an empty candidate-epsilon list. -/
theorem C6_no_validation_cex :
    get_anonymized_location city2 0 0 = .ok (0, 0, {0}, [0]) ∧
    (mkObfuscator []).epsilon_values = [] ∧ (mkObfuscator []).sensitivity = 1 := by
  refine ⟨?_, rfl, rfl⟩
  have h0 : find_k_anonymous_region city2 0 0 = .ok ({0}, [0]) := rfl
  simp [get_anonymized_location, h0]
  norm_num [Finset.sum_singleton, centroid, city2]

/-- C6 amended: no validation happens at either boundary.  The
obfuscator constructor stores any epsilon list (empty included) and the
fixed sensitivity 1.0 without checks, and the k-anonymity engine accepts
non-positive k: with k = 0 the query completes at once, returning the
query user's own node as a singleton region. -/
theorem C6_no_validation (c : City) (u n : ℕ) (hu : List.lookup u c.users = some n) :
    find_k_anonymous_region c 0 u = .ok ({n}, [u]) ∧
    ∀ eps : List ℚ, (mkObfuscator eps).epsilon_values = eps ∧
      (mkObfuscator eps).sensitivity = 1 := by
  refine ⟨?_, fun eps => ⟨rfl, rfl⟩⟩
  obtain ⟨m, hm⟩ : ∃ m, findFuel c = m + 1 := ⟨findFuel c - 1, by unfold findFuel; omega⟩
  simp [find_k_anonymous_region, hu, hm, findLoop]

/-- Witness for C6 amended at the two-node city. -/
theorem C6_no_validation_w :
    List.lookup 0 city2.users = some 0 ∧
    find_k_anonymous_region city2 0 0 = .ok ({0}, [0]) :=
  ⟨rfl, (C6_no_validation city2 0 0 rfl).1⟩

/-! ## Claim theorems: analyzer -/

/-- C7 counterexample.  calculate_utility_loss applied to an empty error
sequence raises (np.max of a zero-size array raises ValueError, modelled
as the error variant) instead of returning a sentinel value. -/
theorem C7_empty_errors_raise_cex :
    calculate_utility_loss [] =
      .error ("zero-size array to reduction operation maximum which has no identity") :=
  rfl

/-- C7 amended: the Analyzer's summary-statistics function raises on an
empty error sequence (np.mean, np.median and np.std only produce nan,
but np.max raises ValueError) and succeeds on any nonempty sequence; the
infinity sentinel for an empty batch lives in the k-anonymity driver
run_simulation, not in the Analyzer. -/
theorem C7_utility_loss_raises_iff_empty (errors : List ℚ) :
    (errors = [] → calculate_utility_loss errors =
      .error ("zero-size array to reduction operation maximum which has no identity")) ∧
    (errors ≠ [] → ∃ s, calculate_utility_loss errors = .ok s) := by
  constructor
  · rintro rfl; rfl
  · intro h
    obtain ⟨x, xs, rfl⟩ := List.exists_cons_of_ne_nil h
    exact ⟨_, rfl⟩

/-- Witness for C7 amended at the empty and a one-element sequence. -/
theorem C7_utility_loss_raises_iff_empty_w :
    calculate_utility_loss [] =
      .error ("zero-size array to reduction operation maximum which has no identity") ∧
    ∃ s, calculate_utility_loss [1] = .ok s :=
  ⟨(C7_utility_loss_raises_iff_empty []).1 rfl,
    (C7_utility_loss_raises_iff_empty [1]).2 (by decide)⟩

/-! ## Claim theorems: lookups and mobility -/

/-- C8 counterexample.  Node 99 is not in the two-node city graph, yet
get_users_at_node silently returns the empty list for it: a lookup of an
unknown node id yields a default empty collection, not an error. -/
theorem C8_unknown_node_silent_empty_cex :
    (99 ∉ cityNodes city2) ∧ get_users_at_node city2 99 = [] :=
  ⟨by decide, rfl⟩

/-- C8 amended: only the user-id lookup fails loudly.  The users-dict
lookup performed by find_k_anonymous_region raises KeyError for an
unknown user id, but get_users_at_node is a filter over the users dict
with no membership check, so for a node id outside the graph (with all
users placed on graph nodes) it silently returns the empty list. -/
theorem C8_lookup_behavior :
    (∀ (c : City) (node_id : ℕ), node_id ∉ cityNodes c →
      (∀ p ∈ c.users, p.2 ∈ cityNodes c) → get_users_at_node c node_id = []) ∧
    (∀ (c : City) (k query_user : ℕ), List.lookup query_user c.users = none →
      find_k_anonymous_region c k query_user = .error ("KeyError")) := by
  constructor
  · intro c node_id hn hall
    have hfil : c.users.filter (fun p => p.2 == node_id) = [] := by
      rw [List.filter_eq_nil_iff]
      intro p hp
      simp only [beq_iff_eq]
      intro he
      exact hn (he ▸ hall p hp)
    simp [get_users_at_node, hfil]
  · intro c k query_user hu
    simp [find_k_anonymous_region, hu]

/-- Witness for C8 amended at the two-node city: unknown node 99 and
unknown user 7. -/
theorem C8_lookup_behavior_w :
    get_users_at_node city2 99 = [] ∧
    find_k_anonymous_region city2 3 7 = .error ("KeyError") :=
  ⟨C8_lookup_behavior.1 city2 99 (by decide) (by decide),
    C8_lookup_behavior.2 city2 3 7 rfl⟩

/-- C10: moving a user to a node id that is not in the graph is a
complete no-op: the entire city state (the users dict, the jittered
user_positions dict and everything else) is returned unchanged and no
error is raised. -/
theorem C10_move_user_unknown_node_noop (c : City) (user_id new_node : ℕ) (jx jy : ℚ)
    (h : new_node ∉ cityNodes c) : move_user c user_id new_node jx jy = c := by
  simp [move_user, h]

/-- Witness for C10: moving (even an unknown) user 5 to the absent node
99 leaves the two-node city untouched. -/
theorem C10_move_user_unknown_node_noop_w :
    move_user city2 5 99 0 0 = city2 :=
  C10_move_user_unknown_node_noop city2 5 99 0 0 (by decide)

/-! ## Claim theorems: privacy-level classification -/

/-- C9 counterexample.  At epsilon = 2 the code returns the string
"Medium Privacy", not the claimed tier string "Medium" (likewise "High
Privacy" and "Very High Privacy" for the other middle tiers). -/
theorem C9_tier_string_cex :
    calculate_privacy_level 2 ≠ ("Medium") ∧
    calculate_privacy_level 2 = ("Medium Privacy") :=
  ⟨by decide, rfl⟩

/-- C9 amended: the five-tier thresholds are exactly as claimed, but the
middle tier strings are "Medium Privacy", "High Privacy" and "Very High
Privacy"; in particular the 5.0 and 0.49 evaluations hold. -/
theorem C9_privacy_level_tiers :
    (∀ epsilon : ℚ,
      (5 ≤ epsilon → calculate_privacy_level epsilon = ("Low Privacy")) ∧
      (2 ≤ epsilon ∧ epsilon < 5 → calculate_privacy_level epsilon = ("Medium Privacy")) ∧
      (1 ≤ epsilon ∧ epsilon < 2 → calculate_privacy_level epsilon = ("High Privacy")) ∧
      (0.5 ≤ epsilon ∧ epsilon < 1 → calculate_privacy_level epsilon = ("Very High Privacy")) ∧
      (epsilon < 0.5 → calculate_privacy_level epsilon = ("Maximum Privacy"))) ∧
    calculate_privacy_level 5 = ("Low Privacy") ∧
    calculate_privacy_level 0.49 = ("Maximum Privacy") := by
  refine ⟨fun epsilon => ⟨?_, ?_, ?_, ?_, ?_⟩, by norm_num [calculate_privacy_level],
    by norm_num [calculate_privacy_level]⟩
  · intro h
    rw [calculate_privacy_level, if_pos h]
  · rintro ⟨h1, h2⟩
    rw [calculate_privacy_level, if_neg (not_le.mpr h2), if_pos h1]
  · rintro ⟨h1, h2⟩
    rw [calculate_privacy_level, if_neg (not_le.mpr (by linarith)),
      if_neg (not_le.mpr h2), if_pos h1]
  · rintro ⟨h1, h2⟩
    rw [calculate_privacy_level, if_neg (not_le.mpr (by linarith)),
      if_neg (not_le.mpr (by linarith)), if_neg (not_le.mpr h2), if_pos h1]
  · intro h
    rw [calculate_privacy_level, if_neg (not_le.mpr (by linarith)),
      if_neg (not_le.mpr (by linarith)), if_neg (not_le.mpr (by linarith)),
      if_neg (not_le.mpr h)]

/-- Witness for C9 amended at epsilon = 3. -/
theorem C9_privacy_level_tiers_w :
    ((2 : ℚ) ≤ 3 ∧ (3 : ℚ) < 5) ∧ calculate_privacy_level 3 = ("Medium Privacy") :=
  ⟨⟨by norm_num, by norm_num⟩, ((C9_privacy_level_tiers.1 3).2.1 ⟨by norm_num, by norm_num⟩)⟩

/-! ## Correctness of expand_region on connected, sufficiently populated
graphs (claim C2): invariant lemmas for the neighbor scan -/

lemma scanNeighbors_subset (g : DGraph) (k : ℕ) :
    ∀ (ns : List ℕ) (region : Finset ℕ) (queue : List ℕ) (count : ℕ),
      (scanNeighbors g k ns region queue count).1 ⊆ region ∪ ns.toFinset := by
  intro ns
  induction ns with
  | nil => intro region queue count; simp [scanNeighbors]
  | cons n ns ih =>
    intro region queue count
    by_cases hn : n ∈ region
    · simp only [scanNeighbors, if_pos hn]
      exact (ih region queue count).trans
        (Finset.union_subset_union (Finset.Subset.refl _) (by simp [Finset.subset_insert]))
    · by_cases hk : k ≤ count + g.pop n
      · simp only [scanNeighbors, if_neg hn, if_pos hk]
        intro x hx
        rcases Finset.mem_insert.mp hx with rfl | hx
        · simp
        · exact Finset.mem_union_left _ hx
      · simp only [scanNeighbors, if_neg hn, if_neg hk]
        refine (ih _ _ _).trans ?_
        intro x hx
        rcases Finset.mem_union.mp hx with hx | hx
        · rcases Finset.mem_insert.mp hx with rfl | hx
          · simp
          · exact Finset.mem_union_left _ hx
        · exact Finset.mem_union_right _ (by simp [hx])

lemma scanNeighbors_count (g : DGraph) (k : ℕ) :
    ∀ (ns : List ℕ) (region : Finset ℕ) (queue : List ℕ) (count : ℕ),
      count = ∑ v in region, g.pop v →
      (scanNeighbors g k ns region queue count).2.2 =
        ∑ v in (scanNeighbors g k ns region queue count).1, g.pop v := by
  intro ns
  induction ns with
  | nil => intro region queue count h; simpa [scanNeighbors] using h
  | cons n ns ih =>
    intro region queue count h
    by_cases hn : n ∈ region
    · simp only [scanNeighbors, if_pos hn]
      exact ih region queue count h
    · have hins : count + g.pop n = ∑ v in insert n region, g.pop v := by
        rw [Finset.sum_insert hn, h]; ring
      by_cases hk : k ≤ count + g.pop n
      · simp only [scanNeighbors, if_neg hn, if_pos hk]
        exact hins
      · simp only [scanNeighbors, if_neg hn, if_neg hk]
        exact ih _ _ _ hins

lemma scanNeighbors_queue (g : DGraph) (k : ℕ) :
    ∀ (ns : List ℕ) (region : Finset ℕ) (queue : List ℕ) (count : ℕ),
      ∃ added : List ℕ,
        (scanNeighbors g k ns region queue count).2.1 = queue ++ added ∧
        (∀ x ∈ (scanNeighbors g k ns region queue count).1,
          x ∈ region ∨ x ∈ added) ∧
        ∀ x ∈ added, x ∈ (scanNeighbors g k ns region queue count).1 := by
  intro ns
  induction ns with
  | nil =>
    intro region queue count
    exact ⟨[], by simp [scanNeighbors], fun x hx => Or.inl hx, fun x hx => by cases hx⟩
  | cons n ns ih =>
    intro region queue count
    by_cases hn : n ∈ region
    · simpa only [scanNeighbors, if_pos hn] using ih region queue count
    · by_cases hk : k ≤ count + g.pop n
      · refine ⟨[n], by simp [scanNeighbors, if_neg hn, if_pos hk], ?_, ?_⟩
        · simp only [scanNeighbors, if_neg hn, if_pos hk]
          intro x hx
          rcases Finset.mem_insert.mp hx with rfl | hx
          · exact Or.inr (by simp)
          · exact Or.inl hx
        · simp only [scanNeighbors, if_neg hn, if_pos hk]
          intro x hx
          rw [List.mem_singleton.mp hx]
          exact Finset.mem_insert_self n region
      · obtain ⟨added, hq, hmem, hadd⟩ := ih (insert n region) (queue ++ [n]) (count + g.pop n)
        refine ⟨n :: added, ?_, ?_, ?_⟩
        · simp only [scanNeighbors, if_neg hn, if_neg hk, hq, List.append_assoc,
            List.singleton_append]
        · simp only [scanNeighbors, if_neg hn, if_neg hk]
          intro x hx
          rcases hmem x hx with hx2 | hx2
          · rcases Finset.mem_insert.mp hx2 with rfl | hx2
            · exact Or.inr (by simp)
            · exact Or.inl hx2
          · exact Or.inr (by simp [hx2])
        · simp only [scanNeighbors, if_neg hn, if_neg hk]
          intro x hx
          rcases List.mem_cons.mp hx with rfl | hx
          · exact scanNeighbors_region_mono g k ns _ _ _ (Finset.mem_insert_self x region)
          · exact hadd x hx

lemma scanNeighbors_measure (g : DGraph) (k : ℕ) :
    ∀ (ns : List ℕ) (region : Finset ℕ) (queue : List ℕ) (count : ℕ),
      (∀ n ∈ ns, n ∈ g.nodes) →
      (scanNeighbors g k ns region queue count).2.1.length +
          2 * (g.nodes \ (scanNeighbors g k ns region queue count).1).card ≤
        queue.length + 2 * (g.nodes \ region).card := by
  intro ns
  induction ns with
  | nil => intro region queue count _; simp [scanNeighbors]
  | cons n ns ih =>
    intro region queue count hns
    by_cases hn : n ∈ region
    · simp only [scanNeighbors, if_pos hn]
      exact ih region queue count fun m hm => hns m (List.mem_cons_of_mem n hm)
    · have hcard : (g.nodes \ insert n region).card + 1 = (g.nodes \ region).card := by
        have hmem : n ∈ g.nodes \ region :=
          Finset.mem_sdiff.mpr ⟨hns n (List.mem_cons_self n ns), hn⟩
        have : g.nodes \ insert n region = (g.nodes \ region).erase n := by
          ext x
          simp only [Finset.mem_sdiff, Finset.mem_insert, Finset.mem_erase]
          tauto
        rw [this, Finset.card_erase_of_mem hmem]
        have hpos : 0 < (g.nodes \ region).card := Finset.card_pos.mpr ⟨n, hmem⟩
        omega
      by_cases hk : k ≤ count + g.pop n
      · simp only [scanNeighbors, if_neg hn, if_pos hk, List.length_append,
          List.length_singleton]
        omega
      · simp only [scanNeighbors, if_neg hn, if_neg hk]
        have := ih (insert n region) (queue ++ [n]) (count + g.pop n)
          fun m hm => hns m (List.mem_cons_of_mem n hm)
        simp only [List.length_append, List.length_singleton] at this
        omega

lemma scanNeighbors_full (g : DGraph) (k : ℕ) :
    ∀ (ns : List ℕ) (region : Finset ℕ) (queue : List ℕ) (count : ℕ),
      (scanNeighbors g k ns region queue count).2.2 < k →
      ∀ n ∈ ns, n ∈ (scanNeighbors g k ns region queue count).1 := by
  intro ns
  induction ns with
  | nil => intro region queue count _ n hn; cases hn
  | cons n ns ih =>
    intro region queue count hlt m hm
    by_cases hn : n ∈ region
    · simp only [scanNeighbors, if_pos hn] at hlt ⊢
      rcases List.mem_cons.mp hm with rfl | hm
      · exact scanNeighbors_region_mono g k ns region queue count hn
      · exact ih region queue count hlt m hm
    · by_cases hk : k ≤ count + g.pop n
      · simp only [scanNeighbors, if_neg hn, if_pos hk] at hlt
        omega
      · simp only [scanNeighbors, if_neg hn, if_neg hk] at hlt ⊢
        rcases List.mem_cons.mp hm with rfl | hm
        · exact scanNeighbors_region_mono g k ns _ _ _ (Finset.mem_insert_self m region)
        · exact ih _ _ _ hlt m hm

/-- A region that contains the seed and is closed under adjacency
contains every node reachable from the seed. -/
lemma reach_subset_closed {adj : ℕ → List ℕ} {s : ℕ} {region : Finset ℕ}
    (hs : s ∈ region) (hcl : ∀ v ∈ region, ∀ w ∈ adj v, w ∈ region) :
    ∀ v, Reach adj s v → v ∈ region := by
  intro v h
  induction h with
  | refl => exact hs
  | step hr hm ih => exact hcl _ ih _ hm

/-- Main invariant induction for the expansion loop: with the running
count equal to the region's aggregate population, the frontier inside the
region, every region node either still on the frontier or with all its
neighbors already in the region, enough fuel, a seed from which all nodes
are reachable, and total population at least k, the loop returns a region
of aggregate population at least k (for either while-condition variant). -/
lemma expandLoop_reaches_k (g : DGraph) (k : ℕ) (guard : Bool) (seed : ℕ)
    (hadj : ∀ u ∈ g.nodes, ∀ v ∈ g.adj u, v ∈ g.nodes)
    (hreach : ∀ v ∈ g.nodes, Reach g.adj seed v)
    (htot : k ≤ ∑ v in g.nodes, g.pop v) :
    ∀ (fuel : ℕ) (region : Finset ℕ) (queue : List ℕ) (count : ℕ),
      count = ∑ v in region, g.pop v →
      region ⊆ g.nodes →
      (∀ x ∈ queue, x ∈ region) →
      (count < k → ∀ v ∈ region, v ∈ queue ∨ ∀ w ∈ g.adj v, w ∈ region) →
      seed ∈ region →
      queue.length + 2 * (g.nodes \ region).card < fuel →
      ∃ r, expandLoop g k guard fuel region queue count = .ok r ∧
        k ≤ ∑ v in r, g.pop v := by
  intro fuel
  induction fuel with
  | zero => intro region queue count _ _ _ _ _ hfuel; omega
  | succ fuel ih =>
    intro region queue count hcount hsub hqreg hclosed hseed hfuel
    by_cases hk : k ≤ count
    · exact ⟨region, by simp only [expandLoop, if_pos hk], hcount ▸ hk⟩
    · have hklt : count < k := Nat.lt_of_not_ge hk
      match queue, hqreg, hfuel with
      | [], hqreg, hfuel =>
        exfalso
        have hcl : ∀ v ∈ region, ∀ w ∈ g.adj v, w ∈ region := by
          intro v hv
          rcases hclosed hklt v hv with hq | hcl
          · cases hq
          · exact hcl
        have hall : g.nodes ⊆ region := fun v hv =>
          reach_subset_closed hseed hcl v (hreach v hv)
        have : region = g.nodes := Finset.Subset.antisymm hsub hall
        rw [this] at hcount
        omega
      | current :: rest, hqreg, hfuel =>
        simp only [expandLoop, if_neg hk]
        have hcur : current ∈ region := hqreg current (List.mem_cons_self current rest)
        have hns : ∀ n ∈ g.adj current, n ∈ g.nodes := hadj current (hsub hcur)
        obtain ⟨added, hq, hmem, hadd⟩ := scanNeighbors_queue g k (g.adj current) region rest count
        refine ih _ _ _ (scanNeighbors_count g k _ _ _ _ hcount) ?_ ?_ ?_ ?_ ?_
        · refine (scanNeighbors_subset g k _ _ _ _).trans ?_
          intro x hx
          rcases Finset.mem_union.mp hx with hx | hx
          · exact hsub hx
          · exact hns x (List.mem_toFinset.mp hx)
        · intro x hx
          rw [hq] at hx
          rcases List.mem_append.mp hx with hx | hx
          · exact scanNeighbors_region_mono g k _ _ _ _
              (hqreg x (List.mem_cons_of_mem current hx))
          · exact hadd x hx
        · intro hlt2 v hv
          rcases hmem v hv with hv2 | hv2
          · by_cases hvc : v = current
            · subst hvc
              right
              intro w hw
              exact scanNeighbors_full g k _ _ _ _ hlt2 w hw
            · rcases hclosed hklt v hv2 with hq2 | hcl2
              · rcases List.mem_cons.mp hq2 with rfl | hq2
                · exact absurd rfl hvc
                · left; rw [hq]; exact List.mem_append_left added hq2
              · right
                intro w hw
                exact scanNeighbors_region_mono g k _ _ _ _ (hcl2 w hw)
          · left
            rw [hq]
            exact List.mem_append_right rest hv2
        · exact scanNeighbors_region_mono g k _ _ _ _ hseed
        · have hm := scanNeighbors_measure g k (g.adj current) region rest count hns
          simp only [List.length_cons] at hfuel
          omega

/-- C2: for every seed of a graph in which every node is reachable from
the seed (as in a connected graph) and whose total population is at
least k, expand_region returns a region whose aggregate population (sum
of the per-node counts over the returned node set) is at least k. -/
theorem C2_expand_region_reaches_k (g : DGraph) (start_node k : ℕ)
    (hseed : start_node ∈ g.nodes)
    (hadj : ∀ u ∈ g.nodes, ∀ v ∈ g.adj u, v ∈ g.nodes)
    (hreach : ∀ v ∈ g.nodes, Reach g.adj start_node v)
    (htot : k ≤ ∑ v in g.nodes, g.pop v) :
    ∃ r, expand_region g start_node k = .ok r ∧ k ≤ ∑ v in r, g.pop v := by
  unfold expand_region
  refine expandLoop_reaches_k g k false start_node hadj hreach htot _ {start_node}
    [start_node] (g.pop start_node) (by simp) (Finset.singleton_subset_iff.mpr hseed)
    ?_ ?_ (Finset.mem_singleton_self _) ?_
  · intro x hx
    rw [List.mem_singleton.mp hx]
    exact Finset.mem_singleton_self _
  · intro _ v hv
    left
    rw [Finset.mem_singleton.mp hv]
    exact List.mem_singleton.mpr rfl
  · have h1 : (g.nodes \ {start_node}).card = g.nodes.card - 1 := by
      rw [Finset.card_sdiff (Finset.singleton_subset_iff.mpr hseed), Finset.card_singleton]
    have h2 : 1 ≤ g.nodes.card := Finset.card_pos.mpr ⟨start_node, hseed⟩
    simp only [List.length_singleton, h1]
    omega

/-- Witness for C2 on the connected two-node graph with one user per
node and k = 2. -/
theorem C2_expand_region_reaches_k_w :
    (0 ∈ g2.nodes ∧ 2 ≤ ∑ v in g2.nodes, g2.pop v) ∧
    ∃ r, expand_region g2 0 2 = .ok r ∧ 2 ≤ ∑ v in r, g2.pop v :=
  ⟨⟨by decide, by decide⟩,
    C2_expand_region_reaches_k g2 0 2 (by decide) (by decide)
      (by
        intro v hv
        have hv2 : v = 0 ∨ v = 1 := by
          have : v ∈ ({0, 1} : Finset ℕ) := hv
          simpa using this
        rcases hv2 with rfl | rfl
        · exact Reach.refl
        · exact Reach.step Reach.refl (by decide))
      (by decide)⟩

/-! ## Correctness of compute_density (claim C4): level-by-level
abstraction of the breadth-first traversal -/

/-- Neighbor scan of one frontier node, returning the updated visited
set, the list of newly discovered nodes in discovery order, and the
updated count.  densityScan is this scan with depth tags attached. -/
def frontScan (g : DGraph) : List ℕ → Finset ℕ → ℕ → Finset ℕ × List ℕ × ℕ
  | [], visited, count => (visited, [], count)
  | n :: ns, visited, count =>
    if n ∈ visited then frontScan g ns visited count
    else
      ((frontScan g ns (insert n visited) (count + g.pop n)).1,
        n :: (frontScan g ns (insert n visited) (count + g.pop n)).2.1,
        (frontScan g ns (insert n visited) (count + g.pop n)).2.2)

/-- Union of the neighbor sets of a list of nodes. -/
def nbrs (g : DGraph) : List ℕ → Finset ℕ
  | [] => ∅
  | u :: us => (g.adj u).toFinset ∪ nbrs g us

/-- Processing of one whole BFS level: scan each frontier node in order,
collecting the newly discovered nodes (the next frontier). -/
def levelRun (g : DGraph) : List ℕ → Finset ℕ → ℕ → Finset ℕ × List ℕ × ℕ
  | [], visited, count => (visited, [], count)
  | u :: us, visited, count =>
    ((levelRun g us (frontScan g (g.adj u) visited count).1
        (frontScan g (g.adj u) visited count).2.2).1,
      (frontScan g (g.adj u) visited count).2.1 ++
        (levelRun g us (frontScan g (g.adj u) visited count).1
          (frontScan g (g.adj u) visited count).2.2).2.1,
      (levelRun g us (frontScan g (g.adj u) visited count).1
        (frontScan g (g.adj u) visited count).2.2).2.2)

/-- The BFS state (visited set, frontier, count) after t whole levels. -/
def levels (g : DGraph) (seed : ℕ) : ℕ → Finset ℕ × List ℕ × ℕ
  | 0 => ({seed}, [seed], g.pop seed)
  | t + 1 => levelRun g (levels g seed t).2.1 (levels g seed t).1 (levels g seed t).2.2

lemma frontScan_visited (g : DGraph) :
    ∀ (ns : List ℕ) (visited : Finset ℕ) (count : ℕ),
      (frontScan g ns visited count).1 = visited ∪ ns.toFinset := by
  intro ns
  induction ns with
  | nil => intro visited count; simp [frontScan]
  | cons n ns ih =>
    intro visited count
    by_cases hn : n ∈ visited
    · simp only [frontScan, if_pos hn, ih, List.toFinset_cons]
      rw [Finset.union_insert, Finset.insert_eq_self.mpr (Finset.mem_union_left _ hn)]
    · simp only [frontScan, if_neg hn, ih, List.toFinset_cons]
      rw [Finset.insert_union, Finset.union_insert]

lemma frontScan_discovered (g : DGraph) :
    ∀ (ns : List ℕ) (visited : Finset ℕ) (count : ℕ),
      ((frontScan g ns visited count).2.1).toFinset = ns.toFinset \ visited := by
  intro ns
  induction ns with
  | nil => intro visited count; simp [frontScan]
  | cons n ns ih =>
    intro visited count
    by_cases hn : n ∈ visited
    · simp only [frontScan, if_pos hn, ih, List.toFinset_cons]
      ext x
      simp only [Finset.mem_sdiff, Finset.mem_insert]
      constructor
      · rintro ⟨hx, hxv⟩; exact ⟨Or.inr hx, hxv⟩
      · rintro ⟨hx | hx, hxv⟩
        · exact absurd (hx ▸ hn) hxv
        · exact ⟨hx, hxv⟩
    · simp only [frontScan, if_neg hn, List.toFinset_cons, ih]
      ext x
      simp only [Finset.mem_insert, Finset.mem_sdiff]
      by_cases hx : x = n
      · subst hx; simp [hn]
      · simp only [hx, false_or, Finset.mem_insert]

lemma frontScan_nodup (g : DGraph) :
    ∀ (ns : List ℕ) (visited : Finset ℕ) (count : ℕ),
      ((frontScan g ns visited count).2.1).Nodup := by
  intro ns
  induction ns with
  | nil => intro visited count; simp [frontScan]
  | cons n ns ih =>
    intro visited count
    by_cases hn : n ∈ visited
    · simpa only [frontScan, if_pos hn] using ih visited count
    · simp only [frontScan, if_neg hn, List.nodup_cons]
      refine ⟨fun hmem => ?_, ih _ _⟩
      have := (frontScan_discovered g ns (insert n visited) (count + g.pop n)) ▸
        List.mem_toFinset.mpr hmem
      exact (Finset.mem_sdiff.mp this).2 (Finset.mem_insert_self n visited)

lemma frontScan_count (g : DGraph) :
    ∀ (ns : List ℕ) (visited : Finset ℕ) (count : ℕ),
      count = ∑ v in visited, g.pop v →
      (frontScan g ns visited count).2.2 =
        ∑ v in (frontScan g ns visited count).1, g.pop v := by
  intro ns
  induction ns with
  | nil => intro visited count h; simpa [frontScan] using h
  | cons n ns ih =>
    intro visited count h
    by_cases hn : n ∈ visited
    · simp only [frontScan, if_pos hn]
      exact ih visited count h
    · simp only [frontScan, if_neg hn]
      exact ih _ _ (by rw [Finset.sum_insert hn, h]; ring)

/-- densityScan is frontScan with depth tags d + 1 appended behind the
existing queue. -/
lemma densityScan_eq_frontScan (g : DGraph) (d : ℕ) :
    ∀ (ns : List ℕ) (visited : Finset ℕ) (queue : List (ℕ × ℕ)) (count : ℕ),
      densityScan g d ns visited queue count =
        ((frontScan g ns visited count).1,
          queue ++ ((frontScan g ns visited count).2.1).map (fun n => (n, d + 1)),
          (frontScan g ns visited count).2.2) := by
  intro ns
  induction ns with
  | nil => intro visited queue count; simp [densityScan, frontScan]
  | cons n ns ih =>
    intro visited queue count
    by_cases hn : n ∈ visited
    · simp only [densityScan, frontScan, if_pos hn]
      exact ih visited queue count
    · simp only [densityScan, frontScan, if_neg hn, ih, List.map_cons,
        List.append_assoc, List.singleton_append]

lemma nbrs_eq_biUnion (g : DGraph) :
    ∀ F : List ℕ, nbrs g F = F.toFinset.biUnion fun u => (g.adj u).toFinset := by
  intro F
  induction F with
  | nil => simp [nbrs]
  | cons u us ih => simp [nbrs, ih, List.toFinset_cons, Finset.biUnion_insert]

lemma sdiff_union_helper (V A N : Finset ℕ) :
    (A \ V) ∪ (((V ∪ A) ∪ N) \ (V ∪ A)) = (V ∪ (A ∪ N)) \ V := by
  ext x
  simp only [Finset.mem_union, Finset.mem_sdiff]
  tauto

lemma levelRun_spec (g : DGraph) :
    ∀ (F : List ℕ) (V : Finset ℕ) (c : ℕ),
      (levelRun g F V c).1 = V ∪ nbrs g F ∧
      ((levelRun g F V c).2.1).Nodup ∧
      ((levelRun g F V c).2.1).toFinset = (V ∪ nbrs g F) \ V ∧
      (c = ∑ v in V, g.pop v →
        (levelRun g F V c).2.2 = ∑ v in V ∪ nbrs g F, g.pop v) := by
  intro F
  induction F with
  | nil =>
    intro V c
    refine ⟨by simp [levelRun, nbrs], by simp [levelRun], by simp [levelRun, nbrs], ?_⟩
    intro h
    simpa [levelRun, nbrs] using h
  | cons u us ih =>
    intro V c
    have hA := frontScan_visited g (g.adj u) V c
    obtain ⟨ih1, ih2, ih3, ih4⟩ :=
      ih (frontScan g (g.adj u) V c).1 (frontScan g (g.adj u) V c).2.2
    have hset : (frontScan g (g.adj u) V c).1 ∪ nbrs g us = V ∪ nbrs g (u :: us) := by
      rw [hA, nbrs, Finset.union_assoc]
    refine ⟨?_, ?_, ?_, ?_⟩
    · simp only [levelRun, ih1, hset]
    · simp only [levelRun, List.nodup_append]
      refine ⟨frontScan_nodup g _ _ _, ih2, ?_⟩
      intro x hx hx2
      have hxA : x ∈ (g.adj u).toFinset \ V :=
        frontScan_discovered g (g.adj u) V c ▸ List.mem_toFinset.mpr hx
      have hxR : x ∈ ((frontScan g (g.adj u) V c).1 ∪ nbrs g us) \
          (frontScan g (g.adj u) V c).1 := ih3 ▸ List.mem_toFinset.mpr hx2
      have := (Finset.mem_sdiff.mp hxR).2
      exact this (hA ▸ Finset.mem_union_right V (Finset.mem_sdiff.mp hxA).1)
    · simp only [levelRun, List.toFinset_append]
      rw [frontScan_discovered, ih3, hA, show nbrs g (u :: us) =
        (g.adj u).toFinset ∪ nbrs g us from rfl]
      exact sdiff_union_helper V _ _
    · intro hc
      simp only [levelRun]
      rw [ih4 (frontScan_count g (g.adj u) V c hc), hset]

/-- The previous ball (the interior of level t). -/
def ballPrev (g : DGraph) (seed : ℕ) : ℕ → Finset ℕ
  | 0 => ∅
  | t + 1 => ball g seed t

lemma ballPrev_biUnion_subset (g : DGraph) (seed : ℕ) :
    ∀ t, (ballPrev g seed t).biUnion (fun u => (g.adj u).toFinset) ⊆ ball g seed t := by
  intro t
  cases t with
  | zero => simp [ballPrev]
  | succ t =>
    rw [ballPrev, ball]
    exact Finset.subset_union_right

lemma ball_succ_of_frontier (g : DGraph) (seed : ℕ) (t : ℕ) :
    ball g seed t ∪
      (ball g seed t \ ballPrev g seed t).biUnion (fun u => (g.adj u).toFinset) =
    ball g seed (t + 1) := by
  rw [ball]
  apply Finset.Subset.antisymm
  · apply Finset.union_subset Finset.subset_union_left
    exact (Finset.biUnion_subset_biUnion_of_subset_left _ (Finset.sdiff_subset)).trans
      Finset.subset_union_right
  · apply Finset.union_subset Finset.subset_union_left
    intro x hx
    obtain ⟨u, hu, hxu⟩ := Finset.mem_biUnion.mp hx
    by_cases hup : u ∈ ballPrev g seed t
    · exact Finset.mem_union_left _
        (ballPrev_biUnion_subset g seed t (Finset.mem_biUnion.mpr ⟨u, hup, hxu⟩))
    · exact Finset.mem_union_right _
        (Finset.mem_biUnion.mpr ⟨u, Finset.mem_sdiff.mpr ⟨hu, hup⟩, hxu⟩)

/-- Invariant of the level iteration: after t levels the visited set is
exactly the radius-t ball, the frontier is a duplicate-free enumeration
of the boundary, and the count is the ball's aggregate population. -/
lemma levels_spec (g : DGraph) (seed : ℕ) :
    ∀ t, (levels g seed t).1 = ball g seed t ∧
      ((levels g seed t).2.1).Nodup ∧
      ((levels g seed t).2.1).toFinset = ball g seed t \ ballPrev g seed t ∧
      (levels g seed t).2.2 = ∑ v in ball g seed t, g.pop v := by
  intro t
  induction t with
  | zero =>
    exact ⟨rfl, by simp [levels], by simp [levels, ball, ballPrev],
      by simp [levels, ball]⟩
  | succ t ih =>
    obtain ⟨ih1, ih2, ih3, ih4⟩ := ih
    obtain ⟨l1, l2, l3, l4⟩ :=
      levelRun_spec g (levels g seed t).2.1 (levels g seed t).1 (levels g seed t).2.2
    have hkey : (levels g seed t).1 ∪ nbrs g (levels g seed t).2.1 = ball g seed (t + 1) := by
      rw [nbrs_eq_biUnion, ih3, ih1, ball_succ_of_frontier]
    refine ⟨?_, ?_, ?_, ?_⟩
    · show (levelRun g (levels g seed t).2.1 (levels g seed t).1 (levels g seed t).2.2).1 = _
      rw [l1, hkey]
    · exact l2
    · show ((levelRun g (levels g seed t).2.1 (levels g seed t).1
        (levels g seed t).2.2).2.1).toFinset = _
      rw [l3, hkey, ih1, ballPrev]
    · show (levelRun g (levels g seed t).2.1 (levels g seed t).1
        (levels g seed t).2.2).2.2 = _
      rw [l4 (ih1 ▸ ih4), hkey]

/-- Bridge for the final level: every queue entry tagged with depth is
popped and skipped, so the loop returns the count unchanged. -/
lemma densityLoop_skip_level (g : DGraph) (depth : ℕ) :
    ∀ (Q : List ℕ) (fuel : ℕ) (V : Finset ℕ) (c : ℕ),
      densityLoop g depth (fuel + Q.length) V (Q.map fun n => (n, depth)) c = some c := by
  intro Q
  induction Q with
  | nil => intro fuel V c; simp [densityLoop]
  | cons q Q ih =>
    intro fuel V c
    rw [show (q :: Q).length = Q.length + 1 from rfl,
      show fuel + (Q.length + 1) = (fuel + Q.length) + 1 from rfl, List.map_cons]
    simp only [densityLoop, if_pos rfl]
    exact ih fuel V c

/-- Bridge for one expansion level: processing all entries of tag
t (not equal to depth) in front of the tag t + 1 entries is exactly
levelRun of that frontier, with the discoveries enqueued behind. -/
lemma densityLoop_level_advance (g : DGraph) (depth t : ℕ) (ht : t ≠ depth) :
    ∀ (A : List ℕ) (fuel : ℕ) (V : Finset ℕ) (B : List ℕ) (c : ℕ),
      densityLoop g depth (fuel + A.length) V
        ((A.map fun n => (n, t)) ++ (B.map fun n => (n, t + 1))) c =
      densityLoop g depth fuel (levelRun g A V c).1
        ((B ++ (levelRun g A V c).2.1).map fun n => (n, t + 1)) (levelRun g A V c).2.2 := by
  intro A
  induction A with
  | nil =>
    intro fuel V B c
    simp [levelRun]
  | cons u A ih =>
    intro fuel V B c
    rw [show (u :: A).length = A.length + 1 from rfl,
      show fuel + (A.length + 1) = (fuel + A.length) + 1 from rfl]
    rw [show ((u :: A).map fun n => (n, t)) ++ (B.map fun n => (n, t + 1)) =
      (u, t) :: ((A.map fun n => (n, t)) ++ (B.map fun n => (n, t + 1))) from rfl]
    simp only [densityLoop, if_neg ht]
    rw [densityScan_eq_frontScan]
    dsimp only
    rw [List.append_assoc, ← List.map_append, ih]
    simp only [levelRun]
    rw [List.append_assoc]

/-- Chaining the level bridges: starting at any level t and running the
loop through the remaining j levels (with exactly the summed frontier
lengths as consumed fuel) yields the count after the final level. -/
lemma densityLoop_via_levels (g : DGraph) (seed depth : ℕ) :
    ∀ (j t : ℕ), t + j = depth → ∀ fuel : ℕ,
      densityLoop g depth
        (fuel + ∑ i in Finset.range (j + 1), ((levels g seed (t + i)).2.1).length)
        (levels g seed t).1 (((levels g seed t).2.1).map fun n => (n, t))
        (levels g seed t).2.2 = some ((levels g seed depth).2.2) := by
  intro j
  induction j with
  | zero =>
    intro t ht fuel
    have ht2 : t = depth := by omega
    subst ht2
    rw [Finset.sum_range_one]
    simpa using densityLoop_skip_level g t ((levels g seed t).2.1) fuel
      (levels g seed t).1 (levels g seed t).2.2
  | succ j ih =>
    intro t ht fuel
    have ht2 : t ≠ depth := by omega
    have hsum : ∑ i in Finset.range (j + 1 + 1), ((levels g seed (t + i)).2.1).length
        = (∑ i in Finset.range (j + 1), ((levels g seed (t + 1 + i)).2.1).length) +
          ((levels g seed t).2.1).length := by
      rw [Finset.sum_range_succ']
      congr 1
      apply Finset.sum_congr rfl
      intro i _
      have he : t + (i + 1) = t + 1 + i := by omega
      rw [he]
    have hadv := densityLoop_level_advance g depth t ht2 ((levels g seed t).2.1)
      (fuel + ∑ i in Finset.range (j + 1), ((levels g seed (t + 1 + i)).2.1).length)
      (levels g seed t).1 [] (levels g seed t).2.2
    simp only [List.map_nil, List.nil_append, List.append_nil] at hadv
    rw [hsum, ← Nat.add_assoc, hadv]
    exact ih (t + 1) (by omega) fuel

lemma ball_subset_nodes (g : DGraph) (seed : ℕ) (hseed : seed ∈ g.nodes)
    (hadj : ∀ u ∈ g.nodes, ∀ v ∈ g.adj u, v ∈ g.nodes) :
    ∀ t, ball g seed t ⊆ g.nodes := by
  intro t
  induction t with
  | zero => simpa [ball] using hseed
  | succ t ih =>
    rw [ball]
    apply Finset.union_subset ih
    intro x hx
    obtain ⟨u, hu, hxu⟩ := Finset.mem_biUnion.mp hx
    exact hadj u (ih hu) x (List.mem_toFinset.mp hxu)

/-- Total fuel consumed over all levels equals the final ball's size. -/
lemma frontier_lengths (g : DGraph) (seed : ℕ) :
    ∀ j, ∑ i in Finset.range (j + 1), ((levels g seed i).2.1).length
      = (ball g seed j).card := by
  intro j
  induction j with
  | zero => simp [levels, ball]
  | succ j ih =>
    rw [Finset.sum_range_succ, ih]
    obtain ⟨_, l2, l3, _⟩ := levels_spec g seed (j + 1)
    have hlen : ((levels g seed (j + 1)).2.1).length =
        (ball g seed (j + 1) \ ball g seed j).card := by
      rw [← List.toFinset_card_of_nodup l2, l3, ballPrev]
    have hsub : ball g seed j ⊆ ball g seed (j + 1) := by
      rw [ball]; exact Finset.subset_union_left
    rw [hlen, ← Finset.card_sdiff_add_card_eq_card hsub]
    omega

lemma compute_density_eq_ball_sum (g : DGraph) (seed : ℕ) (hseed : seed ∈ g.nodes)
    (hadj : ∀ u ∈ g.nodes, ∀ v ∈ g.adj u, v ∈ g.nodes) (depth : ℕ) :
    compute_density g seed depth = some (∑ v in ball g seed depth, g.pop v) := by
  have hcard : (ball g seed depth).card ≤ g.nodes.card :=
    Finset.card_le_card (ball_subset_nodes g seed hseed hadj depth)
  have hfuel : g.nodes.card + 2 =
      (g.nodes.card + 2 - (ball g seed depth).card) +
        ∑ i in Finset.range (depth + 1), ((levels g seed i).2.1).length := by
    rw [frontier_lengths]
    omega
  have hchain := densityLoop_via_levels g seed depth depth 0 (by omega)
    (g.nodes.card + 2 - (ball g seed depth).card)
  simp only [Nat.zero_add] at hchain
  obtain ⟨_, _, _, hc⟩ := levels_spec g seed depth
  rw [hc] at hchain
  unfold compute_density
  rw [hfuel]
  exact hchain

/-- C4: compute_density (local density) at node n and depth d is exactly
the sum of the population counts over the set of nodes at hop distance
at most d from n, each node counted once (the sum ranges over a node
set); in particular at depth 0 it is the population of n itself. -/
theorem C4_compute_density_ball_sum (g : DGraph) (node depth : ℕ)
    (hseed : node ∈ g.nodes)
    (hadj : ∀ u ∈ g.nodes, ∀ v ∈ g.adj u, v ∈ g.nodes) :
    compute_density g node depth = some (∑ v in ball g node depth, g.pop v) ∧
    compute_density g node 0 = some (g.pop node) := by
  refine ⟨compute_density_eq_ball_sum g node hseed hadj depth, ?_⟩
  rw [compute_density_eq_ball_sum g node hseed hadj 0]
  simp [ball]

/-- Witness for C4 on the two-node graph at depths 1 and 0. -/
theorem C4_compute_density_ball_sum_w :
    (0 ∈ g2.nodes) ∧
    compute_density g2 0 1 = some (∑ v in ball g2 0 1, g2.pop v) ∧
    compute_density g2 0 0 = some (g2.pop 0) :=
  ⟨by decide, (C4_compute_density_ball_sum g2 0 1 (by decide) (by decide)).1,
    (C4_compute_density_ball_sum g2 0 0 (by decide) (by decide)).2⟩
